import Mathlib

/-!
A shallow embedding of `src/advanced-vector/vector.h`: the raw-memory holder
`RawMemory<T>` and the dynamic array `Vector<T>` built on top of it.

The buffer of a vector is modelled as a `List (Option α)` of slots, one per
unit of capacity: `some x` is a slot holding a constructed element object with
value `x`, `none` is allocated-but-uninitialized storage.  Element-level
operations that the C++ code performs (placement construction, copy
construction, copy/move assignment, destruction) act on these slots.

Element operations that may throw are driven by an explicit effect record
`Eff`, threaded through every operation:
* `budget` — how many more fallible element operations will succeed before
  one throws (modelling the usual counting test type that throws on its
  N-th operation; `budget = N - 1`);
* `live` — the number of element objects currently constructed anywhere
  (in the vector's buffer, in temporaries, in buffers being built); every
  successful construction adds one, every destructor call on a live object
  removes one, so a completed operation that leaks objects is visible as a
  raised `live`;
* `bad` — the number of destructor calls executed on storage that holds no
  constructed object (undefined behaviour in the C++ source).

Per the compile-time selection in `Vector::UninitializedMoveOrCopy`,
relocation into fresh storage either move-constructs (selected when the
element's move constructor cannot throw; modelled as never consuming budget)
or copy-constructs (fallible).  The flag `um` of an operation records that
per-type selection.  Element move assignment (used by `std::move_backward`
while shifting and by `Erase`) may throw and is modelled as fallible.
-/

namespace AV

/-- Effect state threaded through element-level operations: remaining
successful-operation `budget`, count of `live` constructed element objects,
and count of `bad` destructor calls on storage holding no object. -/
structure Eff where
  budget : Nat
  live : Int
  bad : Nat
deriving DecidableEq, Repr

/-- One fallible element operation: succeeds while the budget lasts. -/
def Eff.consume (e : Eff) : Option Eff :=
  if e.budget = 0 then none else some { e with budget := e.budget - 1 }

/-- Account for one freshly constructed element object. -/
def Eff.constructed (e : Eff) : Eff := { e with live := e.live + 1 }

/-- Account for destruction of one live element object. -/
def Eff.destroyed (e : Eff) : Eff := { e with live := e.live - 1 }

/-- Outcome of an operation that may propagate a C++ exception: `ok` is normal
completion, `thrown` is the state observable after the exception has
propagated out of the operation. -/
inductive Res (σ : Type u) where
  | ok : σ → Eff → Res σ
  | thrown : σ → Eff → Res σ
deriving DecidableEq, Repr

/-- Destructor call on one slot: destroying a constructed object lowers
`live`; running a destructor on an empty slot is undefined behaviour,
counted in `bad`. -/
def destroySlot {α : Type u} (s : Option α) (e : Eff) : Eff :=
  match s with
  | some _ => e.destroyed
  | none => { e with bad := e.bad + 1 }

/-- Pure footprint of a construction loop: store the values `src` into
slots `i, i+1, …` of `d`. -/
def writeAll {α : Type u} : List α → Nat → List (Option α) → List (Option α)
  | [], _, d => d
  | x :: r, i, d => writeAll r (i + 1) (d.set i (some x))

/-- `std::uninitialized_copy` of the values `src` into raw slots of `d`
starting at index `i`: each element copy construction may throw, and if one
throws the algorithm destroys the objects it itself already constructed
before the exception escapes (so the destination region is raw again). -/
def uninitCopy {α : Type u} : List α → Nat → List (Option α) → Eff → Res (List (Option α))
  | [], _, d, e => .ok d e
  | x :: r, i, d, e =>
    match e.consume with
    | none => .thrown d e
    | some e1 =>
      match uninitCopy r (i + 1) (d.set i (some x)) e1.constructed with
      | .ok d2 e2 => .ok d2 e2
      | .thrown _ e2 => .thrown d e2.destroyed

/-- `std::uninitialized_move` in the configuration where the element type's
move constructor is statically known not to throw: every source object is
move-constructed into the destination (one new live object each; the
moved-from source objects remain alive until destroyed by the caller). -/
def uninitMoveAll {α : Type u} : List α → Nat → List (Option α) → Eff → List (Option α) × Eff
  | [], _, d, e => (d, e)
  | x :: r, i, d, e => uninitMoveAll r (i + 1) (d.set i (some x)) e.constructed

/-- `std::destroy_n` over `n` slots starting at index `i`. -/
def destroyN {α : Type u} : Nat → Nat → List (Option α) → Eff → List (Option α) × Eff
  | 0, _, d, e => (d, e)
  | n + 1, i, d, e => destroyN n (i + 1) (d.set i none) (destroySlot (d.getD i none) e)

/-- `std::move_backward` of `count` slots `[first, first+count)` shifted up to
`[first+1, first+count+1)`, processed from the back; every element move
assignment may throw, and a throw leaves the slots already assigned as they
are (no rollback inside the algorithm). -/
def moveBackwardSlots {α : Type u} : Nat → Nat → List (Option α) → Eff → Res (List (Option α))
  | 0, _, d, e => .ok d e
  | k + 1, first, d, e =>
    match e.consume with
    | none => .thrown d e
    | some e1 => moveBackwardSlots k first (d.set (first + k + 1) (d.getD (first + k) none)) e1

/-- Pure footprint of a fully successful `moveBackwardSlots`. -/
def shiftUp {α : Type u} : Nat → Nat → List (Option α) → List (Option α)
  | 0, _, d => d
  | k + 1, first, d => shiftUp k first (d.set (first + k + 1) (d.getD (first + k) none))

/-- element-wise `std::copy_n`: copy assignment into already constructed
slots; each assignment may throw, with no rollback. -/
def copyAssignRange {α : Type u} : List α → Nat → List (Option α) → Eff → Res (List (Option α))
  | [], _, d, e => .ok d e
  | x :: r, i, d, e =>
    match e.consume with
    | none => .thrown d e
    | some e1 => copyAssignRange r (i + 1) (d.set i (some x)) e1

/-- `RawMemory<T>`: a block of `Capacity` raw slots.  The C++ invariant that a
zero capacity goes with a null base pointer makes the pair (pointer, capacity)
observably equivalent to the slot list itself (`[]` is the null buffer). -/
structure RawMemory (α : Type u) where
  buffer : List (Option α)
deriving DecidableEq, Repr

/-- `RawMemory::Capacity`. -/
def RawMemory.Capacity {α : Type u} (m : RawMemory α) : Nat := m.buffer.length

/-- `RawMemory::Swap`: exchange buffer and capacity; result
`(this after, other after)`. -/
def RawMemory.Swap {α : Type u} (a b : RawMemory α) : RawMemory α × RawMemory α := (b, a)

/-- `RawMemory::operator=(RawMemory&&)` on distinct objects: the body is
`Swap(other)`; result `(target after, source after)`. -/
def RawMemory.MoveAssign {α : Type u} (dst src : RawMemory α) : RawMemory α × RawMemory α :=
  RawMemory.Swap dst src

/-- `Vector<T>`: slot buffer (`data`, of length `Capacity`) plus the count
`size` of constructed elements at the front. -/
structure Vector (α : Type u) where
  data : List (Option α)
  size : Nat
deriving DecidableEq, Repr

/-- `Vector::Capacity`. -/
def Vector.Capacity {α : Type u} (v : Vector α) : Nat := v.data.length

/-- `Vector::Size`. -/
def Vector.Size {α : Type u} (v : Vector α) : Nat := v.size

/-- Read slot `i` of a buffer as a `T` object (the caller guarantees the slot
is constructed, as for `RawMemory::operator[]`). -/
def readSlot {α : Type u} [Inhabited α] (d : List (Option α)) (i : Nat) : α :=
  (d.getD i none).getD default

/-- Read the `n` consecutive constructed slots starting at `i` as values. -/
def readRange {α : Type u} [Inhabited α] (d : List (Option α)) (i n : Nat) : List α :=
  ((d.drop i).take n).map (fun s => s.getD default)

/-- `Vector::operator[]`. -/
def Vector.Get {α : Type u} [Inhabited α] (v : Vector α) (i : Nat) : α :=
  readSlot v.data i

/-- `Vector::UninitializedMoveOrCopy`: compile-time selection, per element
type, between non-throwing move construction (`um = true`, chosen when
`std::is_nothrow_move_constructible_v<T>` holds) and copy construction. -/
def UninitializedMoveOrCopy {α : Type u} (um : Bool) (src : List α) (i : Nat)
    (d : List (Option α)) (e : Eff) : Res (List (Option α)) :=
  if um then
    let p := uninitMoveAll src i d e
    .ok p.1 p.2
  else uninitCopy src i d e

/-- `Vector::Emplace(pos, args...)`, `p = pos - begin()`, mirrored from the
source line by line.  `mkArg` models the argument pack `args...`: it is
evaluated against the buffer contents at the exact moment the source runs
`T(std::forward<Args>(args)...)`, which lets an argument alias an element of
the vector itself.  Preconditions (the `assert`): `p ≤ size`. -/
def Vector.Emplace {α : Type u} [Inhabited α] (um : Bool)
    (mkArg : List (Option α) → α) (p : Nat) (v : Vector α) (e : Eff) : Res (Vector α) :=
  if v.size = v.Capacity then
    -- RawMemory<T> new_data(size_ == 0 ? 1 : size_ * 2);
    let newCap := if v.size = 0 then 1 else v.size * 2
    let nd0 : List (Option α) := List.replicate newCap none
    -- insert_element = new (new_data.GetAddress() + shift) T(args...);
    match e.consume with
    | none => .thrown v e
    | some e1 =>
      let nd1 := nd0.set p (some (mkArg v.data))
      match UninitializedMoveOrCopy um (readRange v.data 0 p) 0 nd1 e1.constructed with
      | .thrown _ e2 =>
        -- catch: std::destroy_at(insert_element); throw;
        .thrown v e2.destroyed
      | .ok nd2 e2 =>
        match UninitializedMoveOrCopy um (readRange v.data p (v.size - p)) (p + 1) nd2 e2 with
        | .thrown ndF e3 =>
          -- catch: std::destroy_n(insert_element, size_ - shift + 1); throw;
          .thrown v (destroyN (v.size - p + 1) p ndF e3).2
        | .ok nd3 e3 =>
          -- std::destroy(begin(), end()); data_.Swap(new_data);
          .ok { data := nd3, size := v.size + 1 } { e3 with live := e3.live - v.size }
  else
    if p ≠ v.size then
      -- T temp(std::forward<Args>(args)...);
      match e.consume with
      | none => .thrown v e
      | some e1 =>
        let temp := mkArg v.data
        -- new (end()) T(std::move(*(end() - 1)));  (non-throwing move construction)
        let d1 := v.data.set v.size (some (readSlot v.data (v.size - 1)))
        match moveBackwardSlots (v.size - 1 - p) p d1 e1.constructed.constructed with
        | .thrown d2 e3 =>
          -- catch: std::destroy_at(end()); throw;  temp destroyed by unwinding
          .thrown { data := d2.set v.size none, size := v.size }
            ((destroySlot (d2.getD v.size none) e3).destroyed)
        | .ok d2 e3 =>
          -- data_[shift] = std::move(temp);
          match e3.consume with
          | none =>
            -- the assignment threw: temp destroyed by unwinding, nothing else undone
            .thrown { data := d2, size := v.size } e3.destroyed
          | some e4 =>
            -- ++size_;  temp destroyed at scope exit
            .ok { data := d2.set p (some temp), size := v.size + 1 } e4.destroyed
    else
      -- insert_element = new (begin() + shift) T(std::forward<Args>(args)...);
      match e.consume with
      | none => .thrown v e
      | some e1 =>
        .ok { data := v.data.set p (some (mkArg v.data)), size := v.size + 1 } e1.constructed

/-- `Vector::EmplaceBack(args...)` calls `Emplace(cend(), args...)`. -/
def Vector.EmplaceBack {α : Type u} [Inhabited α] (um : Bool)
    (mkArg : List (Option α) → α) (v : Vector α) (e : Eff) : Res (Vector α) :=
  v.Emplace um mkArg v.size e

/-- `Vector::PushBack(value)` forwards to `EmplaceBack`. -/
def Vector.PushBack {α : Type u} [Inhabited α] (um : Bool) (x : α)
    (v : Vector α) (e : Eff) : Res (Vector α) :=
  v.EmplaceBack um (fun _ => x) e

/-- `Vector::Insert(pos, value)` forwards to `Emplace`. -/
def Vector.Insert {α : Type u} [Inhabited α] (um : Bool) (x : α) (p : Nat)
    (v : Vector α) (e : Eff) : Res (Vector α) :=
  v.Emplace um (fun _ => x) p e

/-- `Insert(pos, (*this)[i])` / `PushBack((*this)[i])`: the inserted value is
passed as a reference aliasing slot `i` of the vector itself, so the argument
is read only at the moment the source constructs from it. -/
def Vector.InsertSelf {α : Type u} [Inhabited α] (um : Bool) (i p : Nat)
    (v : Vector α) (e : Eff) : Res (Vector α) :=
  v.Emplace um (fun d => readSlot d i) p e

/-- `Vector::Reserve`. -/
def Vector.Reserve {α : Type u} [Inhabited α] (um : Bool) (k : Nat)
    (v : Vector α) (e : Eff) : Res (Vector α) :=
  if k ≤ v.Capacity then .ok v e
  else
    match UninitializedMoveOrCopy um (readRange v.data 0 v.size) 0 (List.replicate k none) e with
    | .thrown _ e1 => .thrown v e1
    | .ok nd e1 =>
      -- data_.Swap(new_data); std::destroy_n(new_data.GetAddress(), size_);
      .ok { data := nd, size := v.size } { e1 with live := e1.live - v.size }

/-- A sequence of `PushBack` calls, stopping at the first thrown exception. -/
def pushSeq {α : Type u} [Inhabited α] (um : Bool) : List α → Vector α → Eff → Res (Vector α)
  | [], v, e => .ok v e
  | x :: r, v, e =>
    match v.PushBack um x e with
    | .thrown w e1 => .thrown w e1
    | .ok w e1 => pushSeq um r w e1

/-- `Vector::operator=(Vector&&)` on distinct objects:
`data_ = std::move(other.data_)` (a `RawMemory` swap) and
`size_ = std::exchange(other.size_, 0)`; result `(target after, source after)`. -/
def Vector.MoveAssign {α : Type u} (dst src : Vector α) : Vector α × Vector α :=
  (⟨src.data, src.size⟩, ⟨dst.data, 0⟩)

/-- `Vector::CopyNoChangeCapacity(other)` (capacity of `*this` suffices). -/
def Vector.CopyNoChangeCapacity {α : Type u} [Inhabited α] (dst src : Vector α)
    (e : Eff) : Res (Vector α) :=
  match copyAssignRange (readRange src.data 0 (min dst.size src.size)) 0 dst.data e with
  | .thrown d1 e1 => .thrown { data := d1, size := dst.size } e1
  | .ok d1 e1 =>
    if dst.size < src.size then
      match uninitCopy (readRange src.data dst.size (src.size - dst.size)) dst.size d1 e1 with
      | .thrown d2 e2 => .thrown { data := d2, size := dst.size } e2
      | .ok d2 e2 => .ok { data := d2, size := src.size } e2
    else
      let q := destroyN (dst.size - src.size) src.size d1 e1
      .ok { data := q.1, size := src.size } q.2

/-- `Vector::operator=(const Vector&)` on distinct objects.  When capacity is
insufficient the source runs `Vector copy_other(other); Swap(copy_other);`
and lets `copy_other` (now holding the old buffer) be destroyed. -/
def Vector.CopyAssign {α : Type u} [Inhabited α] (dst src : Vector α) (e : Eff) : Res (Vector α) :=
  if dst.Capacity < src.size then
    match uninitCopy (readRange src.data 0 src.size) 0 (List.replicate src.size none) e with
    | .thrown _ e1 => .thrown dst e1
    | .ok nd e1 =>
      .ok { data := nd, size := src.size } (destroyN dst.size 0 dst.data e1).2
  else
    Vector.CopyNoChangeCapacity dst src e

/-- A well-formed vector value: `xs` are the constructed elements in order,
`ex` the number of trailing uninitialized slots (`Capacity = xs.length + ex`). -/
def mkVec {α : Type u} (xs : List α) (ex : Nat) : Vector α :=
  ⟨xs.map some ++ List.replicate ex none, xs.length⟩

/-- The representation invariant of `Vector` stated in the specification:
`0 ≤ size ≤ capacity`, slots `[0, size)` constructed, slots
`[size, capacity)` uninitialized. -/
def Vector.WF {α : Type u} (v : Vector α) : Prop :=
  v.size ≤ v.data.length ∧
  (v.data.take v.size).all Option.isSome = true ∧
  (v.data.drop v.size).all Option.isNone = true

instance {α : Type u} (v : Vector α) : Decidable v.WF := by
  unfold Vector.WF
  infer_instance

/-! ### Basic effect and slot-list lemmas -/

theorem consume_zero (e : Eff) (h : e.budget = 0) : e.consume = none := by
  simp [Eff.consume, h]

theorem consume_succ (e : Eff) (h : e.budget ≠ 0) :
    e.consume = some ⟨e.budget - 1, e.live, e.bad⟩ := by
  cases e
  simp [Eff.consume, h] at h ⊢

theorem eff_eta (e : Eff) : e = ⟨e.budget, e.live, e.bad⟩ := rfl

theorem getD_set_self {β : Type u} (d : List β) (n : Nat) (v dflt : β) (h : n < d.length) :
    (d.set n v).getD n dflt = v := by
  rw [List.getD_eq_getElem _ _ (by simpa using h)]
  simp

theorem getD_set_ne {β : Type u} (d : List β) (n m : Nat) (v dflt : β) (h : n ≠ m) :
    (d.set n v).getD m dflt = d.getD m dflt := by
  rcases Nat.lt_or_ge m d.length with hm | hm
  · rw [List.getD_eq_getElem _ _ (by simpa using hm), List.getD_eq_getElem _ _ hm]
    exact List.getElem_set_ne h _
  · rw [List.getD_eq_default _ _ (by simpa using hm), List.getD_eq_default _ _ hm]

theorem set_append_len {β : Type u} (A : List β) (b : β) (B : List β) (v : β) :
    (A ++ b :: B).set A.length v = A ++ v :: B := by
  rw [List.set_append_right _ _ (Nat.le_refl _)]
  simp

theorem replicate_getD {α : Type u} (ex m : Nat) :
    (List.replicate ex (none : Option α)).getD m none = none := by
  induction ex generalizing m with
  | zero => rfl
  | succ n ih =>
    cases m with
    | zero => rfl
    | succ m => simp [List.replicate_succ, ih m]

theorem canon_getD_lt {α : Type u} [Inhabited α] (xs : List α) (ex m : Nat) (h : m < xs.length) :
    (xs.map some ++ List.replicate ex none).getD m none = some (xs.getD m default) := by
  rw [List.getD_append _ _ _ _ (by simpa using h)]
  rw [List.getD_eq_getElem _ _ (by simpa using h), List.getD_eq_getElem _ _ h]
  simp

theorem canon_getD_ge {α : Type u} (xs : List α) (ex m : Nat) (h : xs.length ≤ m) :
    (xs.map some ++ List.replicate ex none).getD m none = none := by
  rw [List.getD_append_right _ _ _ _ (by simpa using h)]
  exact replicate_getD _ _

theorem getD_some_comp {α : Type u} [Inhabited α] :
    ((fun (s : Option α) => s.getD default) ∘ some) = id := by
  funext a
  simp

theorem readRange_front {α : Type u} [Inhabited α] (xs : List α) (ex p : Nat)
    (hp : p ≤ xs.length) :
    readRange (xs.map some ++ List.replicate ex none) 0 p = xs.take p := by
  unfold readRange
  rw [List.drop_zero, List.take_append_of_le_length (by simpa using hp), ← List.map_take,
    List.map_map, getD_some_comp, List.map_id]

theorem readRange_back {α : Type u} [Inhabited α] (xs : List α) (ex p : Nat)
    (hp : p ≤ xs.length) :
    readRange (xs.map some ++ List.replicate ex none) p (xs.length - p) = xs.drop p := by
  unfold readRange
  rw [List.drop_append_of_le_length (by simpa using hp), ← List.map_drop,
    List.take_append_of_le_length (by simp [hp]), List.take_of_length_le (by simp),
    List.map_map, getD_some_comp, List.map_id]

/-! ### Characterizations of the element-loop helpers -/

theorem writeAll_append {α : Type u} (src : List α) :
    ∀ (A B : List (Option α)), src.length ≤ B.length →
      writeAll src A.length (A ++ B) = A ++ src.map some ++ B.drop src.length := by
  induction src with
  | nil => intro A B _; simp [writeAll]
  | cons x r ih =>
    intro A B h
    cases B with
    | nil => simp at h
    | cons b B2 =>
      show writeAll r (A.length + 1) ((A ++ b :: B2).set A.length (some x)) = _
      rw [set_append_len]
      have h2 : r.length ≤ B2.length := by simpa using h
      have e1 : A ++ some x :: B2 = (A ++ [some x]) ++ B2 := by simp
      have e2 : A.length + 1 = (A ++ [some x]).length := by simp
      rw [e1, e2, ih (A ++ [some x]) B2 h2]
      simp

theorem uninitCopy_ok {α : Type u} (src : List α) :
    ∀ (i : Nat) (d : List (Option α)) (e : Eff), src.length ≤ e.budget →
      uninitCopy src i d e =
        .ok (writeAll src i d) ⟨e.budget - src.length, e.live + src.length, e.bad⟩ := by
  induction src with
  | nil =>
    intro i d e _
    simp [uninitCopy, writeAll, ← eff_eta]
  | cons x r ih =>
    intro i d e h
    obtain ⟨b, l, bd⟩ := e
    simp only [List.length_cons] at h
    have hb : b ≠ 0 := by omega
    have step := ih (i + 1) (d.set i (some x)) ⟨b - 1, l + 1, bd⟩ (by simp; omega)
    simp only [uninitCopy, Eff.consume, hb, if_false, ite_false, Eff.constructed, step]
    show Res.ok _ _ = Res.ok (writeAll (x :: r) i d) _
    rw [show writeAll (x :: r) i d = writeAll r (i + 1) (d.set i (some x)) from rfl]
    congr 1
    have hbn : b - 1 - r.length = b - (r.length + 1) := by omega
    simp [hbn]
    ring

theorem uninitCopy_thrown {α : Type u} (src : List α) :
    ∀ (i : Nat) (d : List (Option α)) (e : Eff), e.budget < src.length →
      uninitCopy src i d e = .thrown d ⟨0, e.live, e.bad⟩ := by
  induction src with
  | nil => intro i d e h; simp at h
  | cons x r ih =>
    intro i d e h
    obtain ⟨b, l, bd⟩ := e
    simp only [List.length_cons] at h
    by_cases hb : b = 0
    · simp only [uninitCopy, Eff.consume, hb, if_true, ite_true]
    · have step := ih (i + 1) (d.set i (some x)) ⟨b - 1, l + 1, bd⟩ (by simp; omega)
      simp only [uninitCopy, Eff.consume, hb, if_false, ite_false, Eff.constructed, step]
      show Res.thrown d (Eff.destroyed ⟨0, l + 1, bd⟩) = _
      simp [Eff.destroyed]

theorem uninitMoveAll_eq {α : Type u} (src : List α) :
    ∀ (i : Nat) (d : List (Option α)) (e : Eff),
      uninitMoveAll src i d e = (writeAll src i d, ⟨e.budget, e.live + src.length, e.bad⟩) := by
  induction src with
  | nil => intro i d e; simp [uninitMoveAll, writeAll, ← eff_eta]
  | cons x r ih =>
    intro i d e
    obtain ⟨b, l, bd⟩ := e
    have step := ih (i + 1) (d.set i (some x)) ⟨b, l + 1, bd⟩
    simp only [uninitMoveAll, Eff.constructed, step]
    show (_, _) = (writeAll (x :: r) i d, _)
    rw [show writeAll (x :: r) i d = writeAll r (i + 1) (d.set i (some x)) from rfl]
    congr 1
    simp
    ring

theorem UMOC_ok_move {α : Type u} (src : List α) (i : Nat) (d : List (Option α)) (e : Eff) :
    UninitializedMoveOrCopy true src i d e =
      .ok (writeAll src i d) ⟨e.budget, e.live + src.length, e.bad⟩ := by
  rw [UninitializedMoveOrCopy, if_pos rfl, uninitMoveAll_eq]

theorem UMOC_ok_copy {α : Type u} (src : List α) (i : Nat) (d : List (Option α)) (e : Eff)
    (h : src.length ≤ e.budget) :
    UninitializedMoveOrCopy false src i d e =
      .ok (writeAll src i d) ⟨e.budget - src.length, e.live + src.length, e.bad⟩ := by
  rw [UninitializedMoveOrCopy, if_neg (by simp)]
  exact uninitCopy_ok src i d e h

theorem UMOC_thrown_copy {α : Type u} (src : List α) (i : Nat) (d : List (Option α)) (e : Eff)
    (h : e.budget < src.length) :
    UninitializedMoveOrCopy false src i d e = .thrown d ⟨0, e.live, e.bad⟩ := by
  rw [UninitializedMoveOrCopy, if_neg (by simp)]
  exact uninitCopy_thrown src i d e h

/-! ### Shifting lemmas (`std::move_backward`) -/

theorem shiftUp_length {α : Type u} (count : Nat) :
    ∀ (first : Nat) (d : List (Option α)), (shiftUp count first d).length = d.length := by
  induction count with
  | zero => intro first d; rfl
  | succ k ih => intro first d; rw [shiftUp, ih]; simp

theorem shiftUp_getD {α : Type u} (count : Nat) :
    ∀ (first : Nat) (d : List (Option α)), first + count < d.length → ∀ m,
      (shiftUp count first d).getD m none =
        if first + 1 ≤ m ∧ m ≤ first + count then d.getD (m - 1) none
        else d.getD m none := by
  induction count with
  | zero =>
    intro first d _ m
    rw [if_neg (by omega)]
    rfl
  | succ k ih =>
    intro first d hlen m
    rw [shiftUp]
    have hlen1 : first + k < (d.set (first + k + 1) (d.getD (first + k) none)).length := by
      simp; omega
    rw [ih first _ hlen1 m]
    by_cases h1 : first + 1 ≤ m ∧ m ≤ first + k
    · rw [if_pos h1, if_pos (by omega)]
      exact getD_set_ne _ _ _ _ _ (by omega)
    · rw [if_neg h1]
      by_cases h2 : m = first + k + 1
      · rw [if_pos (by omega), h2]
        rw [getD_set_self _ _ _ _ (by omega)]
        congr 1
      · rw [if_neg (by omega)]
        exact getD_set_ne _ _ _ _ _ (by omega)

theorem moveBackwardSlots_ok {α : Type u} (count : Nat) :
    ∀ (first : Nat) (d : List (Option α)) (e : Eff), count ≤ e.budget →
      moveBackwardSlots count first d e =
        .ok (shiftUp count first d) ⟨e.budget - count, e.live, e.bad⟩ := by
  induction count with
  | zero => intro first d e _; simp [moveBackwardSlots, shiftUp, ← eff_eta]
  | succ k ih =>
    intro first d e h
    obtain ⟨b, l, bd⟩ := e
    simp only at h
    have hb : b ≠ 0 := by omega
    have step := ih first (d.set (first + k + 1) (d.getD (first + k) none)) ⟨b - 1, l, bd⟩
      (by simp; omega)
    simp only [moveBackwardSlots, Eff.consume, hb, if_false, ite_false, step, shiftUp]
    congr 2
    omega

theorem moveBackwardSlots_isThrown {α : Type u} (count : Nat) :
    ∀ (first : Nat) (d : List (Option α)) (e : Eff), e.budget < count →
      ∃ d2, moveBackwardSlots count first d e = .thrown d2 ⟨0, e.live, e.bad⟩ := by
  induction count with
  | zero => intro first d e h; simp at h
  | succ k ih =>
    intro first d e h
    obtain ⟨b, l, bd⟩ := e
    by_cases hb : b = 0
    · refine ⟨d, ?_⟩
      simp only [moveBackwardSlots, Eff.consume, hb, if_true, ite_true]
    · obtain ⟨d2, hd2⟩ := ih first (d.set (first + k + 1) (d.getD (first + k) none))
        ⟨b - 1, l, bd⟩ (by simp only at h ⊢; omega)
      refine ⟨d2, ?_⟩
      simp only [moveBackwardSlots, Eff.consume, hb, if_false, ite_false, hd2]

theorem moveBackwardSlots_thrown {α : Type u} (count : Nat) :
    ∀ (first : Nat) (d : List (Option α)) (e : Eff) (d2 : List (Option α)) (e2 : Eff),
      moveBackwardSlots count first d e = .thrown d2 e2 →
      (∀ m, first ≤ m → m ≤ first + count → (d.getD m none).isSome = true) →
      d2.length = d.length ∧ e2 = ⟨0, e.live, e.bad⟩ ∧
      (∀ m, m < first → d2.getD m none = d.getD m none) ∧
      (∀ m, first + count < m → d2.getD m none = d.getD m none) ∧
      (∀ m, first ≤ m → m ≤ first + count → (d2.getD m none).isSome = true) := by
  induction count with
  | zero => intro first d e d2 e2 h _; cases h
  | succ k ih =>
    intro first d e d2 e2 h hsome
    obtain ⟨b, l, bd⟩ := e
    by_cases hb : b = 0
    · simp only [moveBackwardSlots, Eff.consume, hb, if_true, ite_true] at h
      cases h
      exact ⟨rfl, rfl, fun m _ => rfl, fun m _ => rfl, hsome⟩
    · simp only [moveBackwardSlots, Eff.consume, hb, if_false, ite_false] at h
      -- the top move assignment succeeded: recurse on the updated list
      have hbound : first + k + 1 < d.length := by
        have := hsome (first + k + 1) (by omega) (by omega)
        by_contra hc
        rw [List.getD_eq_default _ _ (by omega)] at this
        simp at this
      have hsome1 : ∀ m, first ≤ m → m ≤ first + k →
          (((d.set (first + k + 1) (d.getD (first + k) none)).getD m none).isSome = true) := by
        intro m h1 h2
        rw [getD_set_ne _ _ _ _ _ (by omega)]
        exact hsome m h1 (by omega)
      obtain ⟨hl, he, hlo, hhi, hmid⟩ := ih first _ ⟨b - 1, l, bd⟩ d2 e2 h hsome1
      refine ⟨by simpa using hl, he, ?_, ?_, ?_⟩
      · intro m hm
        rw [hlo m hm, getD_set_ne _ _ _ _ _ (by omega)]
      · intro m hm
        rw [hhi m (by omega), getD_set_ne _ _ _ _ _ (by omega)]
      · intro m h1 h2
        by_cases hmk : m ≤ first + k
        · exact hmid m h1 hmk
        · have hm : m = first + k + 1 := by omega
          rw [hm, hhi (first + k + 1) (by omega),
            getD_set_self _ _ _ _ (by omega)]
          exact hsome (first + k) (by omega) (by omega)

/-! ### `mkVec` basics -/

theorem mkVec_size {α : Type u} (xs : List α) (ex : Nat) : (mkVec xs ex).size = xs.length := rfl

theorem mkVec_data {α : Type u} (xs : List α) (ex : Nat) :
    (mkVec xs ex).data = xs.map some ++ List.replicate ex none := rfl

theorem mkVec_capacity {α : Type u} (xs : List α) (ex : Nat) :
    (mkVec xs ex).Capacity = xs.length + ex := by
  simp [mkVec, Vector.Capacity]

/-! ### Characterization of `Emplace` in the reallocation branch -/

theorem constructed_mk (b : Nat) (l : Int) (bd : Nat) :
    Eff.constructed ⟨b, l, bd⟩ = ⟨b, l + 1, bd⟩ := rfl

theorem destroyed_mk (b : Nat) (l : Int) (bd : Nat) :
    Eff.destroyed ⟨b, l, bd⟩ = ⟨b, l - 1, bd⟩ := rfl

theorem UMOC_cases {α : Type u} (um : Bool) (src : List α) (i : Nat)
    (d : List (Option α)) (e : Eff) :
    (∃ b2, UninitializedMoveOrCopy um src i d e =
        .ok (writeAll src i d) ⟨b2, e.live + src.length, e.bad⟩) ∨
      UninitializedMoveOrCopy um src i d e = .thrown d ⟨0, e.live, e.bad⟩ := by
  cases um
  · rcases Nat.lt_or_ge e.budget src.length with hlt | hge
    · right; exact UMOC_thrown_copy src i d e hlt
    · left; exact ⟨_, UMOC_ok_copy src i d e hge⟩
  · left; exact ⟨_, UMOC_ok_move src i d e⟩

theorem writeAll_zero {α : Type u} (src : List α) (B : List (Option α))
    (h : src.length ≤ B.length) :
    writeAll src 0 B = src.map some ++ B.drop src.length := by
  simpa using writeAll_append src [] B h

theorem replicate_set {α : Type u} :
    ∀ (C p : Nat) (t : α), p < C →
      (List.replicate C (none : Option α)).set p (some t) =
        List.replicate p none ++ some t :: List.replicate (C - (p + 1)) none := by
  intro C
  induction C with
  | zero => intro p t h; omega
  | succ C ih =>
    intro p t h
    cases p with
    | zero => simp [List.replicate_succ]
    | succ p =>
      have := ih p t (by omega)
      simp [List.replicate_succ, this]

/-- Combined footprint of the reallocation branch: construct the new element
at offset `p` of the fresh buffer, then relocate the old elements around it. -/
theorem realloc_data_eq {α : Type u} (xs : List α) (p C : Nat) (t : α)
    (hp : p ≤ xs.length) (hC : xs.length + 1 ≤ C) :
    writeAll (xs.drop p) (p + 1)
        (writeAll (xs.take p) 0 ((List.replicate C (none : Option α)).set p (some t)))
      = (xs.take p ++ t :: xs.drop p).map some ++
          List.replicate (C - (xs.length + 1)) none := by
  rw [replicate_set C p t (by omega)]
  have hlen1 : (xs.take p).length = p := by simp [hp]
  have hstep1 : writeAll (xs.take p) 0
      (List.replicate p (none : Option α) ++ some t :: List.replicate (C - (p + 1)) none) =
      (xs.take p).map some ++ some t :: List.replicate (C - (p + 1)) none := by
    rw [writeAll_zero _ _
        (by simp only [List.length_take, List.length_append, List.length_cons,
          List.length_replicate]; omega),
      hlen1, List.drop_left' (by simp : (List.replicate p (none : Option α)).length = p)]
  rw [hstep1]
  have hA : ((xs.take p).map some ++ [some t]).length = p + 1 := by simp [hp]
  have hw := writeAll_append (xs.drop p) ((xs.take p).map some ++ [some t])
    (List.replicate (C - (p + 1)) none)
    (by simp only [List.length_drop, List.length_replicate]; omega)
  rw [hA] at hw
  have hassoc : (xs.take p).map some ++ some t :: List.replicate (C - (p + 1)) none =
      ((xs.take p).map some ++ [some t]) ++ List.replicate (C - (p + 1)) none := by
    simp
  rw [hassoc, hw, List.drop_replicate]
  have hcount : C - (p + 1) - (xs.drop p).length = C - (xs.length + 1) := by
    simp only [List.length_drop]
    omega
  rw [hcount]
  simp

theorem mkVec_readRange_front {α : Type u} [Inhabited α] (xs : List α) (ex p : Nat)
    (hp : p ≤ xs.length) : readRange (mkVec xs ex).data 0 p = xs.take p :=
  readRange_front xs ex p hp

theorem mkVec_readRange_back {α : Type u} [Inhabited α] (xs : List α) (ex p : Nat)
    (hp : p ≤ xs.length) :
    readRange (mkVec xs ex).data p (xs.length - p) = xs.drop p :=
  readRange_back xs ex p hp

theorem Emplace_full_ok {α : Type u} [Inhabited α] (um : Bool) (mkArg : List (Option α) → α)
    (p : Nat) (xs : List α) (e : Eff) (w : Vector α) (e2 : Eff) (hp : p ≤ xs.length)
    (h : Vector.Emplace um mkArg p (mkVec xs 0) e = .ok w e2) :
    w = mkVec (xs.take p ++ mkArg (mkVec xs 0).data :: xs.drop p)
      ((if xs.length = 0 then 1 else xs.length * 2) - (xs.length + 1)) := by
  have hsz : (mkVec xs 0).size = (mkVec xs 0).Capacity := by
    simp [mkVec_size, mkVec_capacity]
  have hC : xs.length + 1 ≤ (if xs.length = 0 then 1 else xs.length * 2) := by
    by_cases h0 : xs.length = 0
    · simp [h0]
    · simp [h0]
      omega
  rw [Vector.Emplace, if_pos hsz] at h
  simp only [mkVec_size] at h
  obtain ⟨b, l, bd⟩ := e
  by_cases hb : b = 0
  · rw [consume_zero _ hb] at h
    simp at h
  · rw [consume_succ _ hb] at h
    simp only [constructed_mk] at h
    rw [mkVec_readRange_front xs 0 p hp, mkVec_readRange_back xs 0 p hp] at h
    rcases UMOC_cases um (xs.take p) 0
        ((List.replicate (if xs.length = 0 then 1 else xs.length * 2) none).set p
          (some (mkArg (mkVec xs 0).data))) ⟨b - 1, l + 1, bd⟩ with ⟨b2, hU⟩ | hU
    · rw [hU] at h
      simp only [] at h
      rcases UMOC_cases um (xs.drop p) (p + 1)
          (writeAll (xs.take p)
            0 ((List.replicate (if xs.length = 0 then 1 else xs.length * 2) none).set p
              (some (mkArg (mkVec xs 0).data)))) ⟨b2, l + 1 + (xs.take p).length, bd⟩
        with ⟨b3, hU2⟩ | hU2
      · rw [hU2] at h
        simp only [Res.ok.injEq] at h
        rw [← h.1]
        rw [mkVec]
        have hdata := realloc_data_eq xs p (if xs.length = 0 then 1 else xs.length * 2)
          (mkArg (mkVec xs 0).data) hp hC
        rw [Vector.mk.injEq]
        constructor
        · exact hdata
        · rw [mkVec_size]
          simp only [List.length_append, List.length_cons, List.length_take, List.length_drop]
          omega
      · rw [hU2] at h
        simp at h
    · rw [hU] at h
      simp at h

/-! ### Pointwise list helpers -/

theorem eq_of_getD {β : Type u} :
    ∀ (l1 l2 : List β) (dflt : β), l1.length = l2.length →
      (∀ m, m < l1.length → l1.getD m dflt = l2.getD m dflt) → l1 = l2 := by
  intro l1
  induction l1 with
  | nil =>
    intro l2 dflt hl _
    cases l2 with
    | nil => rfl
    | cons y s => simp at hl
  | cons x r ih =>
    intro l2 dflt hl hm
    cases l2 with
    | nil => simp at hl
    | cons y s =>
      have h0 : x = y := hm 0 (by simp)
      have ht : r = s := by
        refine ih s dflt (by simpa using hl) ?_
        intro m hm2
        have := hm (m + 1) (by simp; omega)
        simpa using this
      rw [h0, ht]

theorem getD_take {β : Type u} (xs : List β) (p m : Nat) (dflt : β)
    (h : m < p) (h2 : m < xs.length) :
    (xs.take p).getD m dflt = xs.getD m dflt := by
  rw [List.getD_eq_getElem _ _ (by simp; omega), List.getD_eq_getElem _ _ h2]
  exact List.getElem_take xs

theorem getD_drop {β : Type u} (xs : List β) (p m : Nat) (dflt : β) (h : p + m < xs.length) :
    (xs.drop p).getD m dflt = xs.getD (p + m) dflt := by
  rw [List.getD_eq_getElem _ _ (by simp; omega), List.getD_eq_getElem _ _ h]
  exact List.getElem_drop xs

theorem canon_set_len {α : Type u} (xs : List α) (ex : Nat) (v : Option α) :
    (xs.map some ++ none :: List.replicate ex none).set xs.length v =
      xs.map some ++ v :: List.replicate ex none := by
  have h := set_append_len (xs.map some) none (List.replicate ex none) v
  rw [List.length_map] at h
  exact h

theorem UMOC_nil {α : Type u} (um : Bool) (i : Nat) (d : List (Option α)) (e : Eff) :
    UninitializedMoveOrCopy um ([] : List α) i d e = .ok d e := by
  cases um <;> simp [UninitializedMoveOrCopy, uninitCopy, uninitMoveAll, ← eff_eta]

/-! ### The non-reallocating branch of `Emplace` -/

theorem Emplace_spare_atEnd_zero {α : Type u} [Inhabited α] (um : Bool)
    (mkArg : List (Option α) → α) (xs : List α) (ex : Nat) (e : Eff) (hb : e.budget = 0) :
    Vector.Emplace um mkArg xs.length (mkVec xs (ex + 1)) e = .thrown (mkVec xs (ex + 1)) e := by
  have hne : ¬ ((mkVec xs (ex + 1)).size = (mkVec xs (ex + 1)).Capacity) := by
    simp [mkVec_size, mkVec_capacity]
  rw [Vector.Emplace, if_neg hne, if_neg (by simp [mkVec_size]), consume_zero _ hb]

theorem Emplace_spare_atEnd_ok {α : Type u} [Inhabited α] (um : Bool)
    (mkArg : List (Option α) → α) (xs : List α) (ex : Nat) (e : Eff) (hb : e.budget ≠ 0) :
    Vector.Emplace um mkArg xs.length (mkVec xs (ex + 1)) e =
      .ok (mkVec (xs ++ [mkArg (mkVec xs (ex + 1)).data]) ex)
        ⟨e.budget - 1, e.live + 1, e.bad⟩ := by
  have hne : ¬ ((mkVec xs (ex + 1)).size = (mkVec xs (ex + 1)).Capacity) := by
    simp [mkVec_size, mkVec_capacity]
  rw [Vector.Emplace, if_neg hne, if_neg (by simp [mkVec_size])]
  obtain ⟨b, l, bd⟩ := e
  rw [consume_succ _ hb]
  simp only [constructed_mk, mkVec_size]
  have hdata : (mkVec xs (ex + 1)).data.set xs.length
      (some (mkArg (mkVec xs (ex + 1)).data)) =
      (xs ++ [mkArg (mkVec xs (ex + 1)).data]).map some ++ List.replicate ex none := by
    rw [mkVec_data, List.replicate_succ, canon_set_len]
    simp
  rw [hdata]
  rw [show mkVec (xs ++ [mkArg (mkVec xs (ex + 1)).data]) ex =
    ⟨(xs ++ [mkArg (mkVec xs (ex + 1)).data]).map some ++ List.replicate ex none,
      (xs ++ [mkArg (mkVec xs (ex + 1)).data]).length⟩ from rfl]
  simp

/-- Combined footprint of the in-place insertion branch: duplicate the last
element into the first raw slot, shift `[p, size-1)` up by one, then move the
new value into slot `p`. -/
theorem spare_mid_data_eq {α : Type u} [Inhabited α] (xs : List α) (ex p : Nat) (t : α)
    (hp : p < xs.length) :
    ((shiftUp (xs.length - 1 - p) p
        ((xs.map some ++ List.replicate (ex + 1) none).set xs.length
          (some (readSlot (xs.map some ++ List.replicate (ex + 1) none)
            (xs.length - 1))))).set p (some t))
      = (xs.take p ++ t :: xs.drop p).map some ++ List.replicate ex none := by
  set lastv := readSlot (xs.map some ++ List.replicate (ex + 1) none) (xs.length - 1) with hlastv
  have hlv : lastv = xs.getD (xs.length - 1) default := by
    rw [hlastv, readSlot, canon_getD_lt xs (ex + 1) (xs.length - 1) (by omega)]
    rfl
  have hd1 : (xs.map some ++ List.replicate (ex + 1) none).set xs.length (some lastv) =
      (xs ++ [lastv]).map some ++ List.replicate ex none := by
    rw [List.replicate_succ, canon_set_len]
    simp
  rw [hd1]
  have hlen1 : ((xs ++ [lastv]).map some ++ List.replicate ex none).length =
      xs.length + 1 + ex := by simp; omega
  have hcnt : p + (xs.length - 1 - p) = xs.length - 1 := by omega
  refine eq_of_getD _ _ none (by simp [shiftUp_length]; omega) ?_
  intro m hm
  rw [List.length_set, shiftUp_length] at hm
  rw [hlen1] at hm
  by_cases hmp : m = p
  · rw [hmp, getD_set_self _ _ _ _ (by rw [shiftUp_length, hlen1]; omega)]
    rw [canon_getD_lt _ ex p (by simp; omega)]
    rw [List.getD_append_right _ _ _ _ (by simp [Nat.le_of_lt hp])]
    simp [Nat.le_of_lt hp]
  · rw [getD_set_ne _ _ _ _ _ (fun hx => hmp hx.symm)]
    rw [shiftUp_getD _ _ _ (by rw [hlen1]; omega) m]
    by_cases h1 : p + 1 ≤ m ∧ m ≤ p + (xs.length - 1 - p)
    · rw [if_pos h1]
      -- shifted region: slot m holds the old element m-1
      rw [canon_getD_lt (xs ++ [lastv]) ex (m - 1) (by simp; omega)]
      rw [canon_getD_lt _ ex m (by simp; omega)]
      rw [List.getD_append _ _ _ _ (by omega)]
      rw [List.getD_append_right _ _ _ _ (by simp [Nat.le_of_lt hp]; omega)]
      rw [List.length_take, Nat.min_eq_left (Nat.le_of_lt hp)]
      have hsub : m - p = (m - p - 1) + 1 := by omega
      rw [hsub]
      show some (xs.getD (m - 1) default) = some ((xs.drop p).getD (m - p - 1) default)
      rw [getD_drop _ _ _ _ (by omega)]
      congr 2
      omega
    · rw [if_neg h1]
      by_cases h2 : m < p
      · -- untouched region before the insertion point
        rw [canon_getD_lt (xs ++ [lastv]) ex m (by simp; omega)]
        rw [canon_getD_lt _ ex m (by simp; omega)]
        rw [List.getD_append _ _ _ _ (by omega)]
        rw [List.getD_append _ _ _ _ (by simp; omega)]
        rw [getD_take _ _ _ _ h2 (by omega)]
      · have hmge : xs.length ≤ m := by omega
        by_cases h3 : m = xs.length
        · -- the duplicated last element now sits at index size
          rw [h3, canon_getD_lt (xs ++ [lastv]) ex xs.length (by simp)]
          rw [canon_getD_lt _ ex xs.length (by simp; omega)]
          rw [List.getD_append_right _ _ _ _ (Nat.le_refl _)]
          rw [List.getD_append_right _ _ _ _ (by rw [List.length_take]; omega)]
          simp only [List.length_take, Nat.min_eq_left (Nat.le_of_lt hp)]
          have hs1 : xs.length - xs.length = 0 := by omega
          have hs2 : xs.length - p = (xs.length - p - 1) + 1 := by omega
          rw [hs1, hs2]
          show some lastv = some ((xs.drop p).getD (xs.length - p - 1) default)
          rw [getD_drop _ _ _ _ (by omega), hlv]
          congr 2
          omega
        · -- raw tail beyond the new size
          rw [canon_getD_ge (xs ++ [lastv]) ex m (by simp; omega)]
          rw [canon_getD_ge _ ex m (by simp; omega)]

theorem Emplace_spare_mid_ok {α : Type u} [Inhabited α] (um : Bool)
    (mkArg : List (Option α) → α) (p : Nat) (xs : List α) (ex : Nat)
    (e : Eff) (w : Vector α) (e2 : Eff) (hp : p < xs.length)
    (h : Vector.Emplace um mkArg p (mkVec xs (ex + 1)) e = .ok w e2) :
    w = mkVec (xs.take p ++ mkArg (mkVec xs (ex + 1)).data :: xs.drop p) ex := by
  have hne : ¬ ((mkVec xs (ex + 1)).size = (mkVec xs (ex + 1)).Capacity) := by
    simp [mkVec_size, mkVec_capacity]
  rw [Vector.Emplace, if_neg hne, if_pos (by simp [mkVec_size]; omega)] at h
  simp only [mkVec_size] at h
  obtain ⟨b, l, bd⟩ := e
  by_cases hb : b = 0
  · rw [consume_zero _ hb] at h
    simp at h
  · rw [consume_succ _ hb] at h
    simp only [constructed_mk] at h
    rcases Nat.lt_or_ge (b - 1) (xs.length - 1 - p) with hcnt | hcnt
    · obtain ⟨d2, hd2⟩ := moveBackwardSlots_isThrown (xs.length - 1 - p) p
        ((mkVec xs (ex + 1)).data.set xs.length
          (some (readSlot (mkVec xs (ex + 1)).data (xs.length - 1))))
        ⟨b - 1, l + 1 + 1, bd⟩ (by simpa using hcnt)
      rw [hd2] at h
      simp at h
    · rw [moveBackwardSlots_ok (xs.length - 1 - p) p
        ((mkVec xs (ex + 1)).data.set xs.length
          (some (readSlot (mkVec xs (ex + 1)).data (xs.length - 1))))
        ⟨b - 1, l + 1 + 1, bd⟩ (by simpa using hcnt)] at h
      simp only [] at h
      by_cases hb2 : b - 1 - (xs.length - 1 - p) = 0
      · rw [consume_zero _ (by simpa using hb2)] at h
        simp at h
      · rw [consume_succ _ (by simpa using hb2)] at h
        simp only [destroyed_mk, Res.ok.injEq] at h
        rw [← h.1, mkVec]
        rw [Vector.mk.injEq]
        constructor
        · have := spare_mid_data_eq xs ex p (mkArg (mkVec xs (ex + 1)).data) hp
          rw [mkVec_data] at this ⊢
          exact this
        · rw [mkVec_size]
          simp only [List.length_append, List.length_cons, List.length_take, List.length_drop]
          omega

/-! ### `Emplace` at `end()` can only throw leaving everything unchanged -/

theorem Emplace_atEnd_thrown {α : Type u} [Inhabited α] (um : Bool)
    (mkArg : List (Option α) → α) (xs : List α) (ex : Nat) (e : Eff) (w : Vector α) (e2 : Eff)
    (h : Vector.Emplace um mkArg xs.length (mkVec xs ex) e = .thrown w e2) :
    w = mkVec xs ex ∧ e2.live = e.live ∧ e2.bad = e.bad := by
  cases ex with
  | succ ex =>
    obtain ⟨b, l, bd⟩ := e
    by_cases hb : b = 0
    · rw [Emplace_spare_atEnd_zero um mkArg xs ex _ hb] at h
      cases h
      exact ⟨rfl, rfl, rfl⟩
    · rw [Emplace_spare_atEnd_ok um mkArg xs ex _ hb] at h
      simp at h
  | zero =>
    have hsz : (mkVec xs 0).size = (mkVec xs 0).Capacity := by
      simp [mkVec_size, mkVec_capacity]
    rw [Vector.Emplace, if_pos hsz] at h
    simp only [mkVec_size] at h
    obtain ⟨b, l, bd⟩ := e
    by_cases hb : b = 0
    · rw [consume_zero _ hb] at h
      simp only [] at h
      cases h
      exact ⟨rfl, rfl, rfl⟩
    · rw [consume_succ _ hb] at h
      simp only [constructed_mk] at h
      rw [mkVec_readRange_front xs 0 xs.length (Nat.le_refl _),
        mkVec_readRange_back xs 0 xs.length (Nat.le_refl _), List.take_length,
        List.drop_length] at h
      rcases UMOC_cases um xs 0
          ((List.replicate (if xs.length = 0 then 1 else xs.length * 2) none).set xs.length
            (some (mkArg (mkVec xs 0).data))) ⟨b - 1, l + 1, bd⟩ with ⟨b2, hU⟩ | hU
      · rw [hU] at h
        simp only [] at h
        rw [UMOC_nil] at h
        simp only [] at h
        simp at h
      · rw [hU] at h
        simp only [destroyed_mk] at h
        cases h
        exact ⟨rfl, by simp [Eff.destroyed], rfl⟩

/-! ### `PushBack` and push sequences -/

theorem PushBack_eq_Emplace {α : Type u} [Inhabited α] (um : Bool) (x : α) (v : Vector α)
    (e : Eff) : Vector.PushBack um x v e = Vector.Emplace um (fun _ => x) v.size v e := rfl

theorem PushBack_ok {α : Type u} [Inhabited α] (um : Bool) (x : α) (xs : List α) (ex : Nat)
    (e : Eff) (w : Vector α) (e2 : Eff) (h : Vector.PushBack um x (mkVec xs ex) e = .ok w e2) :
    w = mkVec (xs ++ [x])
      (if ex = 0 then (if xs.length = 0 then 1 else xs.length * 2) - (xs.length + 1)
        else ex - 1) := by
  cases ex with
  | zero =>
    rw [PushBack_eq_Emplace, mkVec_size] at h
    have hw := Emplace_full_ok um (fun _ => x) xs.length xs e w e2 (Nat.le_refl _) h
    rw [hw, List.take_length, List.drop_length]
    simp
  | succ ex =>
    rw [PushBack_eq_Emplace, mkVec_size] at h
    by_cases hb : e.budget = 0
    · rw [Emplace_spare_atEnd_zero um _ xs ex e hb] at h
      simp at h
    · rw [Emplace_spare_atEnd_ok um _ xs ex e hb] at h
      simp only [Res.ok.injEq] at h
      rw [← h.1]
      simp

theorem mkVec_get {α : Type u} [Inhabited α] (xs : List α) (ex i : Nat) (h : i < xs.length) :
    (mkVec xs ex).Get i = xs.getD i default := by
  rw [Vector.Get, readSlot, mkVec_data, canon_getD_lt xs ex i h]
  rfl

theorem pushSeq_ok_shape {α : Type u} [Inhabited α] (um : Bool) (ys : List α) :
    ∀ (xs : List α) (ex : Nat) (e : Eff) (w : Vector α) (e2 : Eff),
      pushSeq um ys (mkVec xs ex) e = .ok w e2 → ∃ ex2, w = mkVec (xs ++ ys) ex2 := by
  induction ys with
  | nil =>
    intro xs ex e w e2 h
    rw [pushSeq] at h
    simp only [Res.ok.injEq] at h
    exact ⟨ex, by rw [← h.1, List.append_nil]⟩
  | cons y r ih =>
    intro xs ex e w e2 h
    rw [pushSeq] at h
    cases hP : Vector.PushBack um y (mkVec xs ex) e with
    | thrown w1 e1 =>
      rw [hP] at h
      simp at h
    | ok w1 e1 =>
      rw [hP] at h
      simp only [] at h
      have hw1 := PushBack_ok um y xs ex e w1 e1 hP
      rw [hw1] at h
      obtain ⟨ex2, hx⟩ := ih (xs ++ [y]) _ e1 w e2 h
      exact ⟨ex2, by rw [hx]; simp⟩

theorem pushSeq_spare {α : Type u} [Inhabited α] (um : Bool) (ys : List α) :
    ∀ (xs : List α) (ex : Nat) (e : Eff) (w : Vector α) (e2 : Eff),
      pushSeq um ys (mkVec xs ex) e = .ok w e2 → ys.length ≤ ex →
      w = mkVec (xs ++ ys) (ex - ys.length) := by
  induction ys with
  | nil =>
    intro xs ex e w e2 h _
    rw [pushSeq] at h
    simp only [Res.ok.injEq] at h
    rw [← h.1, List.append_nil]
    simp
  | cons y r ih =>
    intro xs ex e w e2 h hlen
    obtain ⟨ex0, rfl⟩ : ∃ ex0, ex = ex0 + 1 := ⟨ex - 1, by simp at hlen; omega⟩
    rw [pushSeq] at h
    by_cases hb : e.budget = 0
    · rw [PushBack_eq_Emplace, mkVec_size, Emplace_spare_atEnd_zero um _ xs ex0 e hb] at h
      simp at h
    · rw [PushBack_eq_Emplace, mkVec_size, Emplace_spare_atEnd_ok um _ xs ex0 e hb] at h
      simp only [] at h
      have hr := ih (xs ++ [y]) ex0 _ w e2 h (by simp at hlen ⊢; omega)
      rw [hr]
      congr 1 <;> simp [Nat.succ_sub_succ]

/-! ### The doubling-capacity invariant -/

/-- Relation between live count `n` and capacity `c` maintained by the doubling
growth policy starting from an empty vector. -/
def capInv (n c : Nat) : Prop :=
  (n = 0 ∧ c = 0) ∨ (∃ k, c = 2 ^ k ∧ n ≤ c ∧ c < 2 * n)

theorem capInv_step (n ex : Nat) (h : capInv n (n + ex)) :
    capInv (n + 1)
      ((n + 1) + (if ex = 0 then (if n = 0 then 1 else n * 2) - (n + 1) else ex - 1)) := by
  rcases h with ⟨hn, hc⟩ | ⟨k, hk, hle, hlt⟩
  · have hex : ex = 0 := by omega
    rw [hn, hex]
    right
    exact ⟨0, by simp, by simp, by simp⟩
  · have hn1 : 1 ≤ n := by omega
    by_cases hex : ex = 0
    · rw [if_pos hex]
      rw [if_neg (by omega)]
      right
      refine ⟨k + 1, ?_, by omega, by omega⟩
      have hc : n + ex = 2 ^ k := hk
      rw [Nat.pow_succ]
      omega
    · rw [if_neg hex]
      right
      exact ⟨k, by omega, by omega, by omega⟩

theorem capInv_min (n c : Nat) (hn : 1 ≤ n) (h : capInv n c) :
    (∃ k, c = 2 ^ k) ∧ n ≤ c ∧ ∀ j, n ≤ 2 ^ j → c ≤ 2 ^ j := by
  rcases h with ⟨h0, _⟩ | ⟨k, hk, hle, hlt⟩
  · omega
  · refine ⟨⟨k, hk⟩, hle, ?_⟩
    intro j hj
    have h1 : c < 2 ^ (j + 1) := by
      have h2 : 2 ^ (j + 1) = 2 * 2 ^ j := by rw [Nat.pow_succ]; ring
      omega
    rw [hk] at h1 ⊢
    have hkj : k < j + 1 := (Nat.pow_lt_pow_iff_right (by omega)).1 h1
    exact Nat.pow_le_pow_right (by omega) (by omega)

theorem pushSeq_capInv {α : Type u} [Inhabited α] (um : Bool) (ys : List α) :
    ∀ (xs : List α) (ex : Nat) (e : Eff) (w : Vector α) (e2 : Eff),
      pushSeq um ys (mkVec xs ex) e = .ok w e2 →
      capInv xs.length (xs.length + ex) →
      ∃ xs2 ex2, w = mkVec xs2 ex2 ∧ xs2.length = xs.length + ys.length ∧
        capInv xs2.length (xs2.length + ex2) := by
  induction ys with
  | nil =>
    intro xs ex e w e2 h hI
    rw [pushSeq] at h
    simp only [Res.ok.injEq] at h
    exact ⟨xs, ex, h.1.symm, by simp, hI⟩
  | cons y r ih =>
    intro xs ex e w e2 h hI
    rw [pushSeq] at h
    cases hP : Vector.PushBack um y (mkVec xs ex) e with
    | thrown w1 e1 =>
      rw [hP] at h
      simp at h
    | ok w1 e1 =>
      rw [hP] at h
      simp only [] at h
      have hw1 := PushBack_ok um y xs ex e w1 e1 hP
      rw [hw1] at h
      have hI2 := capInv_step xs.length ex hI
      have hlen : (xs ++ [y]).length = xs.length + 1 := by simp
      obtain ⟨xs2, ex2, hw, hl, hI3⟩ := ih (xs ++ [y]) _ e1 w e2 h (by rw [hlen]; exact hI2)
      exact ⟨xs2, ex2, hw, by rw [hl, hlen]; simp; omega, hI3⟩

/-! ### Reserve characterization -/

theorem Reserve_noop {α : Type u} [Inhabited α] (um : Bool) (k : Nat) (xs : List α) (ex : Nat)
    (e : Eff) (h : k ≤ (mkVec xs ex).Capacity) :
    Vector.Reserve um k (mkVec xs ex) e = .ok (mkVec xs ex) e := by
  rw [Vector.Reserve, if_pos h]

theorem Reserve_grow {α : Type u} [Inhabited α] (um : Bool) (k : Nat) (xs : List α) (ex : Nat)
    (e : Eff) (w : Vector α) (e2 : Eff) (hk : (mkVec xs ex).Capacity < k)
    (h : Vector.Reserve um k (mkVec xs ex) e = .ok w e2) :
    w = mkVec xs (k - xs.length) := by
  have hlen : xs.length ≤ (mkVec xs ex).Capacity := by rw [mkVec_capacity]; omega
  rw [Vector.Reserve, if_neg (by omega)] at h
  simp only [mkVec_size] at h
  rw [mkVec_readRange_front xs ex xs.length (Nat.le_refl _), List.take_length] at h
  rcases UMOC_cases um xs 0 (List.replicate k none) e with ⟨b2, hU⟩ | hU
  · rw [hU] at h
    simp only [Res.ok.injEq] at h
    rw [← h.1]
    rw [writeAll_zero xs _ (by simp; omega), List.drop_replicate]
    rfl
  · rw [hU] at h
    simp at h

/-! ### Claim theorems -/

/-- Claim C1 (code bug): in the reallocating branch of `Emplace`, when the
suffix relocation throws, the source's second catch handler runs
`std::destroy_n(insert_element, size_ - shift + 1)`.  Since
`std::uninitialized_copy`/`_move` already destroy the objects they construct
when they throw, this destroys the new element plus `size - shift` slots that
hold no object (undefined behaviour), and never destroys the `shift`
relocated prefix copies, which leak.  Concretely: a full vector `[5, 6]`
(size = capacity = 2), `Emplace` at position 1 of a new element `9`, with an
element type whose third copy/construction throws (`budget = 2`): the new
element and the prefix copy of `5` are placed, the suffix copy of `6` throws,
and afterwards one constructed object has leaked (`live` went from 2 to 3)
and one destructor ran on an empty slot (`bad = 1`), while the vector itself
is returned unchanged.  The claim says every object placed in the new buffer
is destroyed; the code does not do that. -/
theorem C1_emplace_realloc_suffix_throw_leaks :
    Vector.Emplace false (fun _ => 9) 1 (mkVec [5, 6] 0) ⟨2, 2, 0⟩ =
      .thrown (mkVec [5, 6] 0) ⟨0, 3, 1⟩ ∧
    ¬ (Vector.Emplace false (fun _ => 9) 1 (mkVec [5, 6] 0) ⟨2, 2, 0⟩ =
      .thrown (mkVec [5, 6] 0) ⟨0, 2, 0⟩) := by
  constructor
  · decide
  · decide

/-- Claim C2, counterexample: the claim says move-assignment leaves the
source with a null buffer and capacity 0.  The source swaps instead:
move-assigning a two-slot `RawMemory` into a one-slot `RawMemory` leaves the
source holding the destination's former one-slot buffer (capacity 1, not 0),
and likewise for `Vector`. -/
theorem C2_counterexample :
    ¬ ((RawMemory.MoveAssign (⟨[none]⟩ : RawMemory Nat) ⟨[none, none]⟩).2.Capacity = 0) ∧
    ¬ ((Vector.MoveAssign (mkVec [1] 0) (mkVec [2, 3] 0)).2.Capacity = 0) := by
  constructor
  · decide
  · decide

/-- Claim C2, amended: `RawMemory` move-assignment swaps buffer and capacity
with the source (the target takes the source's buffer, the source takes the
target's former buffer); `Vector` move-assignment gives the target the
source's buffer and size and leaves the source with size 0 and the target's
former buffer.  The source therefore ends in the empty state (null, capacity
0) only when the target was empty before the call. -/
theorem C2_moveAssign_swaps {α : Type u} (dm sm : RawMemory α) (dv sv : Vector α) :
    RawMemory.MoveAssign dm sm = (sm, dm) ∧
    Vector.MoveAssign dv sv = (⟨sv.data, sv.size⟩, ⟨dv.data, 0⟩) ∧
    (Vector.MoveAssign dv sv).2.Size = 0 ∧
    (dv.data = [] → (Vector.MoveAssign dv sv).2 = ⟨[], 0⟩) ∧
    (dm.buffer = [] → (RawMemory.MoveAssign dm sm).2 = ⟨[]⟩) := by
  refine ⟨rfl, rfl, rfl, ?_, ?_⟩
  · intro hd
    rw [Vector.MoveAssign]
    rw [hd]
  · intro hd
    rw [RawMemory.MoveAssign, RawMemory.Swap]
    rw [show (⟨[]⟩ : RawMemory α) = dm from by rw [← hd]]

theorem C2_witness :
    ((mkVec [1] 0 : Vector Nat).data = [] →
      (Vector.MoveAssign (mkVec [1] 0) (mkVec [2, 3] 0)).2 = ⟨[], 0⟩) ∧
    (Vector.MoveAssign (mkVec [1] 0) (mkVec [2, 3] 0)).2.Size = 0 := by
  have h := C2_moveAssign_swaps (⟨[some 0]⟩ : RawMemory Nat) ⟨[]⟩
    (mkVec [1] 0) (mkVec [2, 3] 0)
  exact ⟨h.2.2.2.1, h.2.2.1⟩

/-- Claim C3: `PushBack`/`EmplaceBack` give the strong exception guarantee.
For every well-formed array and any point of failure (element-construction
throw, or a throw during copy-relocation after reallocation), the exception
propagates (`thrown`), the array keeps its original buffer, size, and element
values, no constructed object leaks (`live` is restored) and no destructor
runs on dead storage (`bad` unchanged). -/
theorem C3_pushBack_strong {α : Type u} [Inhabited α] (um : Bool) (x : α) (xs : List α)
    (ex : Nat) (e : Eff) (w : Vector α) (e2 : Eff)
    (h : Vector.PushBack um x (mkVec xs ex) e = .thrown w e2) :
    w = mkVec xs ex ∧ e2.live = e.live ∧ e2.bad = e.bad := by
  rw [PushBack_eq_Emplace, mkVec_size] at h
  exact Emplace_atEnd_thrown um _ xs ex e w e2 h

theorem C3_witness :
    Vector.PushBack false 2 (mkVec [1] 0) ⟨1, 1, 0⟩ = .thrown (mkVec [1] 0) ⟨0, 1, 0⟩ ∧
    (mkVec [1] 0 = (mkVec [1] 0 : Vector Nat) ∧
      (⟨0, 1, 0⟩ : Eff).live = (⟨1, 1, 0⟩ : Eff).live ∧
      (⟨0, 1, 0⟩ : Eff).bad = (⟨1, 1, 0⟩ : Eff).bad) := by
  refine ⟨by decide, ?_⟩
  exact C3_pushBack_strong false 2 [1] 0 ⟨1, 1, 0⟩ (mkVec [1] 0) ⟨0, 1, 0⟩ (by decide)

/-- Claim C9 (code bug): the claimed invariant — slots `[size, capacity)` of
every vector are uninitialized after every public operation — is broken by
move-assignment.  Move-assigning `[2, 3]` into a vector holding `[1]` leaves
the source with the target's former buffer, whose slot 0 still holds the
constructed object `1`, while the source's size is 0: a constructed slot
beyond `size` whose destructor will never run (the object leaks). -/
theorem C9_moveAssign_breaks_invariant :
    Vector.WF (mkVec [1] 0 : Vector Nat) ∧ Vector.WF (mkVec [2, 3] 0 : Vector Nat) ∧
    Vector.MoveAssign (mkVec [1] 0) (mkVec [2, 3] 0) = (mkVec [2, 3] 0, ⟨[some 1], 0⟩) ∧
    ¬ Vector.WF ((Vector.MoveAssign (mkVec [1] 0) (mkVec [2, 3] 0)).2) := by
  refine ⟨by decide, by decide, by decide, by decide⟩

/-- Claim C4, counterexample: the claim says that if the shift throws, the
array "returns to its pre-call state … contents uncorrupted".  Insert `9` at
position 0 of `[10, 20, 30]` with one spare slot and an element type whose
move assignment throws on the second move (`budget = 2`): the temporary is
built, the trailing element `30` is duplicated into the spare slot,
`move_backward` moves `20` one slot up and then throws.  The cleanup destroys
the duplicated element and the temporary (size stays 3, nothing leaks), but
the surviving contents are `[10, 20, 20]` — the original value `30` is gone,
so the array is NOT in its pre-call state. -/
theorem C4_counterexample :
    Vector.Emplace false (fun _ => 9) 0 (mkVec [10, 20, 30] 1) ⟨2, 3, 0⟩ =
      .thrown ⟨[some 10, some 20, some 20, none], 3⟩ ⟨0, 3, 0⟩ ∧
    (⟨[some 10, some 20, some 20, none], 3⟩ : Vector Nat) ≠ mkVec [10, 20, 30] 1 := by
  constructor
  · decide
  · decide

/-- Claim C4, amended: for `Emplace` at a position `p` before `end()` with no
reallocation needed, if an exception occurs while shifting elements one slot
forward (that is, during the `std::move_backward` phase), the just-duplicated
trailing element is destroyed and the array keeps its original size with no
object leaked (`live` restored, no destructor on dead storage): all `size`
slots remain constructed and the slots from `size` on remain uninitialized.
The element values in the shifted range, however, may differ from the
pre-call values (no rollback of completed move assignments), which is the
part the counterexample removes from the original claim. -/
theorem C4_shift_throw_no_leak {α : Type u} [Inhabited α] (um : Bool)
    (mkArg : List (Option α) → α) (p : Nat) (xs : List α) (ex : Nat) (e : Eff)
    (hp : p < xs.length) (hb1 : 1 ≤ e.budget) (hb2 : e.budget ≤ xs.length - 1 - p) :
    ∃ d2, Vector.Emplace um mkArg p (mkVec xs (ex + 1)) e =
        .thrown ⟨d2, xs.length⟩ ⟨0, e.live, e.bad⟩ ∧
      d2.length = xs.length + (ex + 1) ∧
      (∀ m, m < xs.length → (d2.getD m none).isSome = true) ∧
      (∀ m, xs.length ≤ m → d2.getD m none = none) := by
  have hne : ¬ ((mkVec xs (ex + 1)).size = (mkVec xs (ex + 1)).Capacity) := by
    simp [mkVec_size, mkVec_capacity]
  obtain ⟨b, l, bd⟩ := e
  simp only [] at hb1 hb2
  have hb : b ≠ 0 := by omega
  set d1 := (mkVec xs (ex + 1)).data.set xs.length
    (some (readSlot (mkVec xs (ex + 1)).data (xs.length - 1))) with hd1def
  have hd1len : d1.length = xs.length + (ex + 1) := by
    rw [hd1def, List.length_set, mkVec_data]
    simp
  have hd1get : ∀ m, m ≠ xs.length →
      d1.getD m none = (xs.map some ++ List.replicate (ex + 1) none).getD m none := by
    intro m hm
    rw [hd1def, mkVec_data, getD_set_ne _ _ _ _ _ (fun hx => hm hx.symm)]
  have hd1some : ∀ m, p ≤ m → m ≤ p + (xs.length - 1 - p) → (d1.getD m none).isSome = true := by
    intro m h1 h2
    rw [hd1get m (by omega), canon_getD_lt xs (ex + 1) m (by omega)]
    rfl
  obtain ⟨dm, hdm⟩ := moveBackwardSlots_isThrown (xs.length - 1 - p) p d1
    ⟨b - 1, l + 1 + 1, bd⟩ (by simp only []; omega)
  have hprops := moveBackwardSlots_thrown (xs.length - 1 - p) p d1
    ⟨b - 1, l + 1 + 1, bd⟩ dm _ hdm hd1some
  obtain ⟨hlen, heff, hlo, hhi, hmid⟩ := hprops
  have hdmlast : dm.getD xs.length none =
      some (readSlot (mkVec xs (ex + 1)).data (xs.length - 1)) := by
    rw [hhi xs.length (by omega), hd1def,
      getD_set_self _ _ _ _ (by rw [mkVec_data]; simp)]
  refine ⟨dm.set xs.length none, ?_, ?_, ?_, ?_⟩
  · rw [Vector.Emplace, if_neg hne, if_pos (by simp [mkVec_size]; omega)]
    simp only [mkVec_size]
    rw [consume_succ _ hb]
    simp only [constructed_mk]
    rw [← hd1def, hdm]
    simp only [heff]
    rw [hdmlast]
    show Res.thrown _ ((Eff.destroyed ⟨0, l + 1 + 1, bd⟩).destroyed) = _
    simp only [destroyed_mk]
    congr 2
    omega
  · rw [List.length_set, hlen, hd1len]
  · intro m hm
    rw [getD_set_ne _ _ _ _ _ (by omega)]
    by_cases hmp : m < p
    · rw [hlo m hmp, hd1get m (by omega), canon_getD_lt xs (ex + 1) m hm]
      rfl
    · exact hmid m (by omega) (by omega)
  · intro m hm
    by_cases hme : m = xs.length
    · rw [hme, getD_set_self _ _ _ _ (by rw [hlen, hd1len]; omega)]
    · rw [getD_set_ne _ _ _ _ _ (fun hx => hme hx.symm)]
      rw [hhi m (by omega), hd1get m (fun hx => hme hx)]
      exact canon_getD_ge xs (ex + 1) m (by omega)

theorem C4_witness :
    (0 < ([10, 20, 30] : List Nat).length ∧ 1 ≤ (⟨2, 3, 0⟩ : Eff).budget ∧
      (⟨2, 3, 0⟩ : Eff).budget ≤ ([10, 20, 30] : List Nat).length - 1 - 0) ∧
    ∃ d2, Vector.Emplace false (fun _ => 9) 0 (mkVec [10, 20, 30] 1) ⟨2, 3, 0⟩ =
        .thrown ⟨d2, ([10, 20, 30] : List Nat).length⟩
          ⟨0, (⟨2, 3, 0⟩ : Eff).live, (⟨2, 3, 0⟩ : Eff).bad⟩ ∧
      d2.length = ([10, 20, 30] : List Nat).length + (0 + 1) ∧
      (∀ m, m < ([10, 20, 30] : List Nat).length → (d2.getD m none).isSome = true) ∧
      (∀ m, ([10, 20, 30] : List Nat).length ≤ m → d2.getD m none = none) := by
  refine ⟨⟨by decide, by decide, by decide⟩, ?_⟩
  exact C4_shift_throw_no_leak false (fun _ => 9) 0 [10, 20, 30] 0 ⟨2, 3, 0⟩
    (by decide) (by decide) (by decide)

/-- Claim C5: for every sequence of successful `PushBack` calls starting from
any well-formed array, the size after each call is the previous size plus one
(so `xs.length + N` after `N` pushes), and every previously held or pushed
value is still retrievable unchanged at its index. -/
theorem C5_pushBack_seq {α : Type u} [Inhabited α] :
    (∀ (um : Bool) (x : α) (xs : List α) (ex : Nat) (e : Eff) (w : Vector α) (e2 : Eff),
        Vector.PushBack um x (mkVec xs ex) e = .ok w e2 →
        w.Size = (mkVec xs ex).Size + 1 ∧ ∃ ex2, w = mkVec (xs ++ [x]) ex2) ∧
    (∀ (um : Bool) (ys xs : List α) (ex : Nat) (e : Eff) (w : Vector α) (e2 : Eff),
        pushSeq um ys (mkVec xs ex) e = .ok w e2 →
        w.Size = xs.length + ys.length ∧ (∃ ex2, w = mkVec (xs ++ ys) ex2) ∧
        ∀ i, i < xs.length + ys.length → w.Get i = (xs ++ ys).getD i default) := by
  constructor
  · intro um x xs ex e w e2 h
    have hw := PushBack_ok um x xs ex e w e2 h
    refine ⟨?_, ⟨_, hw⟩⟩
    rw [hw]
    show (xs ++ [x]).length = xs.length + 1
    simp
  · intro um ys xs ex e w e2 h
    obtain ⟨ex2, hw⟩ := pushSeq_ok_shape um ys xs ex e w e2 h
    refine ⟨?_, ⟨ex2, hw⟩, ?_⟩
    · rw [hw]
      show (xs ++ ys).length = xs.length + ys.length
      simp
    · intro i hi
      rw [hw, mkVec_get _ _ _ (by simp; omega)]

/-- Claim C6: a push on a full array (`size = capacity`) sets the capacity to
exactly double the old capacity, or to 1 when the old capacity was 0;
consequently after `N ≥ 1` successful pushes from an empty array the capacity
is the smallest member of the doubling sequence 1, 2, 4, 8, … that is `≥ N`. -/
theorem C6_capacity_doubling {α : Type u} [Inhabited α] :
    (∀ (um : Bool) (x : α) (xs : List α) (e : Eff) (w : Vector α) (e2 : Eff),
        Vector.PushBack um x (mkVec xs 0) e = .ok w e2 →
        w.Capacity = if (mkVec xs 0).Capacity = 0 then 1 else 2 * (mkVec xs 0).Capacity) ∧
    (∀ (um : Bool) (ys : List α) (e : Eff) (w : Vector α) (e2 : Eff), 1 ≤ ys.length →
        pushSeq um ys (mkVec [] 0) e = .ok w e2 →
        (∃ k, w.Capacity = 2 ^ k) ∧ ys.length ≤ w.Capacity ∧
          ∀ j, ys.length ≤ 2 ^ j → w.Capacity ≤ 2 ^ j) := by
  constructor
  · intro um x xs e w e2 h
    have hw := PushBack_ok um x xs 0 e w e2 h
    rw [hw, mkVec_capacity, mkVec_capacity]
    simp only [if_pos rfl]
    by_cases h0 : xs.length = 0
    · simp [h0]
    · simp only [h0, if_false, ite_false, Nat.add_zero]
      simp
      omega
  · intro um ys e w e2 hys h
    obtain ⟨xs2, ex2, hw, hl, hI⟩ := pushSeq_capInv um ys [] 0 e w e2 h (Or.inl ⟨rfl, rfl⟩)
    have hn : xs2.length = ys.length := by simp at hl; exact hl
    rw [hn] at hI
    rw [hw, mkVec_capacity, hn]
    exact capInv_min ys.length (ys.length + ex2) hys hI

/-- Claim C7: `Reserve(k)` with `k ≤ capacity` changes nothing (state and
effects identical); with `k > capacity` a successful call sets the capacity
to exactly `k` while preserving size and every element value; and `Reserve(k)`
on an empty array followed by any `N ≤ k` successful pushes performs no
further reallocation (the capacity never changes across those pushes — every
reallocation strictly increases it). -/
theorem C7_reserve {α : Type u} [Inhabited α] :
    (∀ (um : Bool) (k : Nat) (xs : List α) (ex : Nat) (e : Eff),
        k ≤ (mkVec xs ex).Capacity →
        Vector.Reserve um k (mkVec xs ex) e = .ok (mkVec xs ex) e) ∧
    (∀ (um : Bool) (k : Nat) (xs : List α) (ex : Nat) (e : Eff) (w : Vector α) (e2 : Eff),
        (mkVec xs ex).Capacity < k →
        Vector.Reserve um k (mkVec xs ex) e = .ok w e2 →
        w = mkVec xs (k - xs.length) ∧ w.Capacity = k ∧ w.Size = (mkVec xs ex).Size) ∧
    (∀ (um : Bool) (k : Nat) (ys : List α) (e1 : Eff) (v1 : Vector α) (e1b e2 : Eff)
        (w : Vector α) (e3 : Eff),
        Vector.Reserve um k (mkVec ([] : List α) 0) e1 = .ok v1 e1b →
        ys.length ≤ k → pushSeq um ys v1 e2 = .ok w e3 →
        w.Capacity = v1.Capacity) := by
  refine ⟨?_, ?_, ?_⟩
  · exact fun um k xs ex e h => Reserve_noop um k xs ex e h
  · intro um k xs ex e w e2 hk h
    have hw := Reserve_grow um k xs ex e w e2 hk h
    have hcap := mkVec_capacity xs ex
    refine ⟨hw, ?_, ?_⟩
    · rw [hw, mkVec_capacity]
      omega
    · rw [hw]
      rfl
  · intro um k ys e1 v1 e1b e2 w e3 hres hlen hpush
    by_cases hk : k = 0
    · subst hk
      rw [Reserve_noop um 0 [] 0 e1 (by simp)] at hres
      simp only [Res.ok.injEq] at hres
      have hys : ys = [] := List.eq_nil_of_length_eq_zero (by omega)
      subst hys
      rw [← hres.1] at hpush
      rw [pushSeq] at hpush
      simp only [Res.ok.injEq] at hpush
      rw [← hpush.1, ← hres.1]
    · have hcap : (mkVec ([] : List α) 0).Capacity < k := by
        rw [mkVec_capacity]
        simp only [List.length_nil]
        omega
      have hv1 := Reserve_grow um k [] 0 e1 v1 e1b hcap hres
      rw [hv1] at hpush
      have hw := pushSeq_spare um ys [] (k - [].length) e2 w e3 hpush (by simp; omega)
      rw [hw, hv1, mkVec_capacity, mkVec_capacity]
      simp only [List.nil_append, List.length_nil]
      omega

/-- Claim C8: copy-assignment into an array whose capacity is smaller than
the source's size builds a full temporary copy first; if an element copy
constructor throws mid-copy, the exception propagates, the target keeps its
size, capacity and every element value, no constructed object leaks and no
destructor runs on dead storage. -/
theorem C8_copyAssign_strong {α : Type u} [Inhabited α] (bs as : List α) (exb exa : Nat)
    (e : Eff) (w : Vector α) (e2 : Eff)
    (hcap : (mkVec bs exb).Capacity < (mkVec as exa).Size)
    (h : Vector.CopyAssign (mkVec bs exb) (mkVec as exa) e = .thrown w e2) :
    w = mkVec bs exb ∧ e2.live = e.live ∧ e2.bad = e.bad := by
  have hcap2 : (mkVec bs exb).Capacity < (mkVec as exa).size := hcap
  rw [Vector.CopyAssign, if_pos hcap2] at h
  simp only [mkVec_size] at h
  rw [mkVec_readRange_front as exa as.length (Nat.le_refl _), List.take_length] at h
  rcases Nat.lt_or_ge e.budget as.length with hlt | hge
  · rw [uninitCopy_thrown as 0 _ e hlt] at h
    simp only [Res.thrown.injEq] at h
    refine ⟨h.1.symm, ?_, ?_⟩
    · rw [← h.2]
    · rw [← h.2]
  · rw [uninitCopy_ok as 0 _ e hge] at h
    simp at h

/-- Claim C10: inserting an element of the array into itself is safe.  The
argument aliases slot `i` of the vector and is read only when the source
constructs from it; since the new element is materialized (in the new buffer,
or in the local temporary) before any existing element is moved or shifted,
a successful `PushBack((*this)[i])` or `Insert(pos, (*this)[i])` inserts the
original value of slot `i`, in the reallocating branch, the shifting branch,
and the push-at-end branch alike. -/
theorem C10_insert_self {α : Type u} [Inhabited α] (um : Bool) (i p : Nat) (xs : List α)
    (ex : Nat) (e : Eff) (w : Vector α) (e2 : Eff) (hi : i < xs.length) (hp : p ≤ xs.length)
    (h : Vector.InsertSelf um i p (mkVec xs ex) e = .ok w e2) :
    ∃ ex2, w = mkVec (xs.take p ++ xs.getD i default :: xs.drop p) ex2 := by
  rw [Vector.InsertSelf] at h
  have hrs : readSlot (mkVec xs ex).data i = xs.getD i default := by
    rw [readSlot, mkVec_data, canon_getD_lt xs ex i hi]
    rfl
  cases ex with
  | zero =>
    have hw := Emplace_full_ok um (fun d => readSlot d i) p xs e w e2 hp h
    refine ⟨(if xs.length = 0 then 1 else xs.length * 2) - (xs.length + 1), ?_⟩
    rw [hw]
    simp only [hrs]
  | succ ex =>
    rcases Nat.lt_or_ge p xs.length with hplt | hpge
    · have hw := Emplace_spare_mid_ok um (fun d => readSlot d i) p xs ex e w e2 hplt h
      refine ⟨ex, ?_⟩
      rw [hw]
      simp only []
      rw [hrs]
    · have hpe : p = xs.length := by omega
      subst hpe
      by_cases hb : e.budget = 0
      · rw [Emplace_spare_atEnd_zero um _ xs ex e hb] at h
        simp at h
      · rw [Emplace_spare_atEnd_ok um _ xs ex e hb] at h
        simp only [Res.ok.injEq] at h
        refine ⟨ex, ?_⟩
        rw [← h.1, List.take_length, List.drop_length]
        simp only [hrs]

theorem C5_witness :
    pushSeq false [7, 8] (mkVec [5] 1) ⟨10, 1, 0⟩ = .ok (mkVec [5, 7, 8] 1) ⟨6, 3, 0⟩ ∧
    ((mkVec [5, 7, 8] 1 : Vector Nat).Size =
        ([5] : List Nat).length + ([7, 8] : List Nat).length ∧
      (∃ ex2, (mkVec [5, 7, 8] 1 : Vector Nat) = mkVec ([5] ++ [7, 8]) ex2) ∧
      ∀ i, i < ([5] : List Nat).length + ([7, 8] : List Nat).length →
        (mkVec [5, 7, 8] 1 : Vector Nat).Get i = (([5] ++ [7, 8] : List Nat)).getD i default) := by
  refine ⟨by decide, ?_⟩
  exact C5_pushBack_seq.2 false [7, 8] [5] 1 ⟨10, 1, 0⟩ (mkVec [5, 7, 8] 1) ⟨6, 3, 0⟩ (by decide)

theorem C6_witness :
    (1 ≤ ([1, 2, 3] : List Nat).length) ∧
    pushSeq false [1, 2, 3] (mkVec [] 0) ⟨10, 0, 0⟩ = .ok (mkVec [1, 2, 3] 1) ⟨4, 3, 0⟩ ∧
    ((∃ k, (mkVec [1, 2, 3] 1 : Vector Nat).Capacity = 2 ^ k) ∧
      ([1, 2, 3] : List Nat).length ≤ (mkVec [1, 2, 3] 1 : Vector Nat).Capacity ∧
      ∀ j, ([1, 2, 3] : List Nat).length ≤ 2 ^ j →
        (mkVec [1, 2, 3] 1 : Vector Nat).Capacity ≤ 2 ^ j) := by
  refine ⟨by decide, by decide, ?_⟩
  exact C6_capacity_doubling.2 false [1, 2, 3] ⟨10, 0, 0⟩ (mkVec [1, 2, 3] 1) ⟨4, 3, 0⟩
    (by decide) (by decide)

theorem C7_witness :
    Vector.Reserve false 4 (mkVec ([] : List Nat) 0) ⟨5, 0, 0⟩ = .ok (mkVec [] 4) ⟨5, 0, 0⟩ ∧
    ([9, 9] : List Nat).length ≤ 4 ∧
    pushSeq false [9, 9] (mkVec ([] : List Nat) 4) ⟨5, 0, 0⟩ = .ok (mkVec [9, 9] 2) ⟨3, 2, 0⟩ ∧
    (mkVec [9, 9] 2 : Vector Nat).Capacity = (mkVec ([] : List Nat) 4).Capacity := by
  refine ⟨by decide, by decide, by decide, ?_⟩
  exact C7_reserve.2.2 false 4 [9, 9] ⟨5, 0, 0⟩ (mkVec [] 4) ⟨5, 0, 0⟩ ⟨5, 0, 0⟩
    (mkVec [9, 9] 2) ⟨3, 2, 0⟩ (by decide) (by decide) (by decide)

theorem C8_witness :
    ((mkVec [7] 1 : Vector Nat).Capacity < (mkVec [1, 2, 3] 0 : Vector Nat).Size) ∧
    Vector.CopyAssign (mkVec [7] 1) (mkVec [1, 2, 3] 0) ⟨2, 4, 0⟩ =
      .thrown (mkVec [7] 1) ⟨0, 4, 0⟩ ∧
    (mkVec [7] 1 = (mkVec [7] 1 : Vector Nat) ∧
      (⟨0, 4, 0⟩ : Eff).live = (⟨2, 4, 0⟩ : Eff).live ∧
      (⟨0, 4, 0⟩ : Eff).bad = (⟨2, 4, 0⟩ : Eff).bad) := by
  refine ⟨by decide, by decide, ?_⟩
  exact C8_copyAssign_strong [7] [1, 2, 3] 1 0 ⟨2, 4, 0⟩ (mkVec [7] 1) ⟨0, 4, 0⟩
    (by decide) (by decide)

theorem C10_witness :
    (0 < ([4, 8] : List Nat).length ∧ 2 ≤ ([4, 8] : List Nat).length) ∧
    Vector.InsertSelf false 0 2 (mkVec [4, 8] 0) ⟨10, 2, 0⟩ =
      .ok (mkVec [4, 8, 4] 1) ⟨7, 3, 0⟩ ∧
    ∃ ex2, (mkVec [4, 8, 4] 1 : Vector Nat) =
      mkVec (([4, 8] : List Nat).take 2 ++ ([4, 8] : List Nat).getD 0 default ::
        ([4, 8] : List Nat).drop 2) ex2 := by
  refine ⟨⟨by decide, by decide⟩, by decide, ?_⟩
  exact C10_insert_self false 0 2 [4, 8] 0 ⟨10, 2, 0⟩ (mkVec [4, 8, 4] 1) ⟨7, 3, 0⟩
    (by decide) (by decide) (by decide)

end AV
